import Mathlib

/-!
Verification of the analytical fractional-differentiation core of
`frac_diff.py`.

The embedding models Python floats as real numbers, and models the partial
function `math.gamma` (which raises a domain error at non-positive integer
arguments) as an `Option`-valued function built on Mathlib's `Real.Gamma`.
The `for`-loops of the integer branch become structural recursions on the
iteration count, and Python's `int()` truncation toward zero becomes
`pyInt`.
-/

namespace FracDiff

noncomputable section

open scoped Classical

/-- Embedding of Python `float.is_integer` over the reals: the value has no
fractional part. -/
def is_integer (x : ℝ) : Prop := Int.fract x = 0

/-- Source function `is_negative_integer`: `x.is_integer() and x < 0`. -/
def is_negative_integer (x : ℝ) : Prop := is_integer x ∧ x < 0

/-- The spec's wording for the classifier: `x` represents an integer value
and `x < 0`. -/
def isNegativeIntegerSpec (x : ℝ) : Prop := (∃ n : ℤ, x = (n : ℝ)) ∧ x < 0

/-- Python `int()` on a real value: truncation toward zero. -/
def pyInt (x : ℝ) : ℤ := if 0 ≤ x then ⌊x⌋ else ⌈x⌉

/-- The differentiation loop of the integer branch:
`for i in range(n): const *= power; power -= 1`. -/
def diffLoop : ℝ → ℝ → ℕ → ℝ × ℝ
  | const, power, 0 => (const, power)
  | const, power, n + 1 => diffLoop (const * power) (power - 1) n

/-- The integration loop of the integer branch:
`for i in range(n): const /= power+1; power += 1`. -/
def intLoop : ℝ → ℝ → ℕ → ℝ × ℝ
  | const, power, 0 => (const, power)
  | const, power, n + 1 => intLoop (const / (power + 1)) (power + 1) n

/-- Arguments at which `math.gamma` raises a domain error: the non-positive
integers (the poles of the Gamma function). -/
def isGammaPole (x : ℝ) : Prop := ∃ n : ℕ, x = -(n : ℝ)

/-- Embedding of `math.gamma`: `none` models the domain error raised at a
non-positive integer argument, otherwise the Gamma function's value. -/
def gammaE (x : ℝ) : Option ℝ :=
  if isGammaPole x then none else some (Real.Gamma x)

/-- Source function `analytical_frac_diff(const, power, a)`: differentiates
`const * x**power` `a` times and returns `(new_const, new_power)`; `none`
models an uncaught `math.gamma` domain error. -/
def analytical_frac_diff (const power a : ℝ) : Option (ℝ × ℝ) :=
  if is_negative_integer power ∧ is_negative_integer (power - a) then
    if 0 ≤ a then
      some (diffLoop const power (pyInt a).toNat)
    else
      some (intLoop const power (-pyInt a).toNat)
  else if is_negative_integer power ∨ is_negative_integer (power - a) then
    some ((0 : ℝ), (0 : ℝ))
  else
    (gammaE (power + 1)).bind fun g1 =>
      (gammaE (power - a + 1)).bind fun g2 =>
        some (const * g1 / g2, power - a)

/-! ### Basic facts about the classifier -/

lemma is_integer_iff {x : ℝ} : is_integer x ↔ ∃ n : ℤ, x = (n : ℝ) := by
  constructor
  · intro h
    refine ⟨⌊x⌋, ?_⟩
    have hx := Int.fract_add_floor x
    rw [is_integer] at h
    rw [h] at hx
    linarith
  · rintro ⟨n, rfl⟩
    exact Int.fract_intCast n

lemma is_negative_integer_iff {x : ℝ} :
    is_negative_integer x ↔ isNegativeIntegerSpec x := by
  rw [is_negative_integer, isNegativeIntegerSpec, is_integer_iff]

lemma negint_exists {x : ℝ} (h : is_negative_integer x) :
    ∃ n : ℤ, x = (n : ℝ) ∧ n ≤ -1 := by
  obtain ⟨hi, hlt⟩ := h
  obtain ⟨n, rfl⟩ := is_integer_iff.mp hi
  have hn : n < 0 := by exact_mod_cast hlt
  exact ⟨n, rfl, by omega⟩

lemma negint_of_int_le {n : ℤ} (h : n ≤ -1) : is_negative_integer ((n : ℝ)) := by
  refine ⟨is_integer_iff.mpr ⟨n, rfl⟩, ?_⟩
  have : (n : ℝ) ≤ -1 := by exact_mod_cast h
  linarith

lemma not_negint_of_nonneg {x : ℝ} (h : 0 ≤ x) : ¬ is_negative_integer x :=
  fun hx => absurd h (not_le.mpr hx.2)

lemma not_int_of_between {x : ℝ} (n : ℤ) (h1 : (n : ℝ) < x)
    (h2 : x < (n : ℝ) + 1) : ¬ is_integer x := by
  intro hi
  obtain ⟨m, rfl⟩ := is_integer_iff.mp hi
  have hm1 : n < m := by exact_mod_cast h1
  have hm2 : (m : ℝ) < ((n + 1 : ℤ) : ℝ) := by push_cast; linarith
  have : m < n + 1 := by exact_mod_cast hm2
  omega

lemma not_negint_of_between {x : ℝ} (n : ℤ) (h1 : (n : ℝ) < x)
    (h2 : x < (n : ℝ) + 1) : ¬ is_negative_integer x :=
  fun hx => not_int_of_between n h1 h2 hx.1

/-! ### Gamma poles and the classifier -/

lemma isGammaPole_add_one_iff {x : ℝ} :
    isGammaPole (x + 1) ↔ is_negative_integer x := by
  constructor
  · rintro ⟨n, hn⟩
    have hx : x = ((-(n : ℤ) - 1 : ℤ) : ℝ) := by push_cast; linarith
    rw [hx]
    refine negint_of_int_le ?_
    omega
  · intro h
    obtain ⟨n, rfl, hn⟩ := negint_exists h
    refine ⟨(-(n + 1)).toNat, ?_⟩
    have ht : ((-(n + 1)).toNat : ℤ) = -(n + 1) := Int.toNat_of_nonneg (by omega)
    have : ((-(n + 1)).toNat : ℝ) = ((-(n + 1) : ℤ) : ℝ) := by exact_mod_cast ht
    rw [this]
    push_cast
    ring

lemma not_pole_of_not_negint {x : ℝ} (h : ¬ is_negative_integer x) :
    ¬ isGammaPole (x + 1) :=
  fun hp => h (isGammaPole_add_one_iff.mp hp)

lemma Gamma_shift_ne_zero {x : ℝ} (h : ¬ is_negative_integer x) :
    Real.Gamma (x + 1) ≠ 0 := by
  refine Real.Gamma_ne_zero fun m hm => h ?_
  have hx : x = ((-(m : ℤ) - 1 : ℤ) : ℝ) := by push_cast; linarith
  rw [hx]
  exact negint_of_int_le (by omega)

/-! ### The three branches of the differentiator -/

lemma first_branch_eq (c k a : ℝ) (h1 : is_negative_integer k)
    (h2 : is_negative_integer (k - a)) :
    analytical_frac_diff c k a =
      if 0 ≤ a then some (diffLoop c k (pyInt a).toNat)
      else some (intLoop c k (-pyInt a).toNat) := by
  rw [analytical_frac_diff, if_pos ⟨h1, h2⟩]

lemma second_branch_eq (c k a : ℝ)
    (h1 : is_negative_integer k ∨ is_negative_integer (k - a))
    (h2 : ¬ (is_negative_integer k ∧ is_negative_integer (k - a))) :
    analytical_frac_diff c k a = some ((0 : ℝ), (0 : ℝ)) := by
  rw [analytical_frac_diff, if_neg h2, if_pos h1]

lemma general_branch_eq (c k a : ℝ) (h1 : ¬ is_negative_integer k)
    (h2 : ¬ is_negative_integer (k - a)) :
    analytical_frac_diff c k a =
      some (c * Real.Gamma (k + 1) / Real.Gamma (k - a + 1), k - a) := by
  rw [analytical_frac_diff, if_neg (by tauto), if_neg (by tauto),
    gammaE, if_neg (not_pole_of_not_negint h1),
    gammaE, if_neg (not_pole_of_not_negint h2)]
  rfl

lemma pyInt_intCast (m : ℤ) : pyInt ((m : ℤ) : ℝ) = m := by
  rw [pyInt]
  split
  · exact Int.floor_intCast m
  · exact Int.ceil_intCast m

/-! ### Facts about the two loops -/

lemma diffLoop_smul (l : ℝ) : ∀ (n : ℕ) (c k : ℝ),
    diffLoop (l * c) k n = (l * (diffLoop c k n).1, (diffLoop c k n).2) := by
  intro n
  induction n with
  | zero => intro c k; rfl
  | succ n ih =>
    intro c k
    rw [diffLoop, diffLoop, mul_assoc]
    exact ih (c * k) (k - 1)

lemma intLoop_smul (l : ℝ) : ∀ (n : ℕ) (c k : ℝ),
    intLoop (l * c) k n = (l * (intLoop c k n).1, (intLoop c k n).2) := by
  intro n
  induction n with
  | zero => intro c k; rfl
  | succ n ih =>
    intro c k
    rw [intLoop, intLoop, mul_div_assoc]
    exact ih (c / (k + 1)) (k + 1)

lemma intLoop_snd : ∀ (n : ℕ) (c k : ℝ), (intLoop c k n).2 = k + n := by
  intro n
  induction n with
  | zero => intro c k; simp [intLoop]
  | succ n ih =>
    intro c k
    rw [intLoop, ih (c / (k + 1)) (k + 1)]
    push_cast
    ring

lemma negint_num {x : ℝ} (n : ℤ) (hn : n ≤ -1) (hx : x = (n : ℝ)) :
    is_negative_integer x :=
  hx ▸ negint_of_int_le hn

lemma pyInt_natCast (n : ℕ) : pyInt ((n : ℕ) : ℝ) = (n : ℤ) := by
  have h := pyInt_intCast ((n : ℕ) : ℤ)
  have hc : (((n : ℕ) : ℤ) : ℝ) = ((n : ℕ) : ℝ) := by push_cast; ring
  rwa [hc] at h

lemma pyInt_neg_natCast (n : ℕ) : pyInt (-((n : ℕ) : ℝ)) = -(n : ℤ) := by
  have h := pyInt_intCast (-((n : ℕ) : ℤ))
  have hc : ((-((n : ℕ) : ℤ) : ℤ) : ℝ) = -((n : ℕ) : ℝ) := by push_cast; ring
  rwa [hc] at h

lemma frac_diff_one_neg_one_one :
    analytical_frac_diff 1 (-1) 1 = some ((-1 : ℝ), (-2 : ℝ)) := by
  have h1 : is_negative_integer (-1 : ℝ) := negint_num (-1) (by omega) (by norm_num)
  have h2 : is_negative_integer ((-1 : ℝ) - 1) :=
    negint_num (-2) (by omega) (by norm_num)
  rw [first_branch_eq 1 (-1) 1 h1 h2, if_pos (by norm_num : (0 : ℝ) ≤ 1)]
  have hp : (pyInt (1 : ℝ)).toNat = 1 := by
    have h0 : ((1 : ℤ) : ℝ) = (1 : ℝ) := by norm_num
    rw [← h0, pyInt_intCast]; rfl
  rw [hp, diffLoop, diffLoop]
  norm_num

/-! ### The claims -/

/-- Claim C8: `is_negative_integer x` holds exactly when `x` represents an
integer value and `x < 0`; in particular it holds at `-2` and fails at
`-2.5`, `2` and `0`. -/
theorem c8_is_negative_integer_contract :
    (∀ x : ℝ, is_negative_integer x ↔ ((∃ n : ℤ, x = (n : ℝ)) ∧ x < 0)) ∧
    is_negative_integer (-2 : ℝ) ∧ ¬ is_negative_integer (-2.5 : ℝ) ∧
    ¬ is_negative_integer (2 : ℝ) ∧ ¬ is_negative_integer (0 : ℝ) := by
  refine ⟨fun x => is_negative_integer_iff, ?_, ?_, ?_, ?_⟩
  · exact negint_num (-2) (by omega) (by norm_num)
  · exact not_negint_of_between (-3) (by norm_num) (by norm_num)
  · exact not_negint_of_nonneg (by norm_num)
  · exact not_negint_of_nonneg le_rfl

/-- Claim C4 counterexample: `analytical_frac_diff 1 (-1) 1` does not return
the placeholder `(0, 0)`: both `-1` and `-1 - 1 = -2` are negative integers,
so the call takes the power-rule branch, not the placeholder branch. -/
theorem c4_counterexample :
    analytical_frac_diff 1 (-1) 1 ≠ some ((0 : ℝ), (0 : ℝ)) := by
  intro h
  rw [frac_diff_one_neg_one_one] at h
  simp only [Option.some.injEq, Prod.mk.injEq] at h
  exact absurd h.1 (by norm_num)

/-- Claim C4 amended: `analytical_frac_diff 1 (-1) 1` returns `(-1, -2)`,
the ordinary power-rule derivative of `x⁻¹`, computed by the
both-negative-integers branch. -/
theorem c4_power_rule_at_neg_one :
    analytical_frac_diff 1 (-1) 1 = some ((-1 : ℝ), (-2 : ℝ)) :=
  frac_diff_one_neg_one_one

/-- Claim C3: when exactly one of `power`, `power - order` is a negative
integer, `analytical_frac_diff` returns the placeholder `(0, 0)` as a normal
(non-exceptional) result, regardless of `const`. -/
theorem c3_placeholder_branch (c k a : ℝ)
    (h : (is_negative_integer k ∧ ¬ is_negative_integer (k - a)) ∨
      (¬ is_negative_integer k ∧ is_negative_integer (k - a))) :
    analytical_frac_diff c k a = some ((0 : ℝ), (0 : ℝ)) := by
  rcases h with ⟨h1, h2⟩ | ⟨h1, h2⟩
  · exact second_branch_eq c k a (Or.inl h1) fun hc => h2 hc.2
  · exact second_branch_eq c k a (Or.inr h2) fun hc => h1 hc.1

/-- Claim C3 witness: at `(const, power, order) = (5, -1, 1/2)` the power is
a negative integer while `-1 - 1/2 = -3/2` is not, and the result is the
placeholder `(0, 0)`. -/
theorem c3_placeholder_branch_witness :
    ((is_negative_integer (-1 : ℝ) ∧ ¬ is_negative_integer ((-1 : ℝ) - 1/2)) ∨
      (¬ is_negative_integer (-1 : ℝ) ∧ is_negative_integer ((-1 : ℝ) - 1/2))) ∧
    analytical_frac_diff 5 (-1) (1/2) = some ((0 : ℝ), (0 : ℝ)) := by
  have h1 : is_negative_integer (-1 : ℝ) := negint_num (-1) (by omega) (by norm_num)
  have h2 : ¬ is_negative_integer ((-1 : ℝ) - 1/2) :=
    not_negint_of_between (-2) (by norm_num) (by norm_num)
  exact ⟨Or.inl ⟨h1, h2⟩, c3_placeholder_branch 5 (-1) (1/2) (Or.inl ⟨h1, h2⟩)⟩

/-- Claim C5: differentiating with order `0` is the identity: for every
`(const, power)`, `analytical_frac_diff const power 0 = (const, power)`. -/
theorem c5_order_zero_identity (c k : ℝ) :
    analytical_frac_diff c k 0 = some (c, k) := by
  by_cases hk : is_negative_integer k
  · have h2 : is_negative_integer (k - 0) := by rwa [sub_zero]
    rw [first_branch_eq c k 0 hk h2, if_pos le_rfl]
    have hp : (pyInt (0 : ℝ)).toNat = 0 := by
      have h0 : ((0 : ℤ) : ℝ) = (0 : ℝ) := by norm_num
      rw [← h0, pyInt_intCast]; rfl
    rw [hp]; rfl
  · have h2 : ¬ is_negative_integer (k - 0) := by rwa [sub_zero]
    rw [general_branch_eq c k 0 hk h2, sub_zero, mul_div_assoc,
      div_self (Gamma_shift_ne_zero hk), mul_one]

/-- Claim C2: when both `power` and `power - order` are negative integers,
the function performs ordinary power-rule recursion: for `order = n ≥ 0` it
iterates `const ← const * power; power ← power - 1` exactly `n` times, and
for `order = -n < 0` it iterates `const ← const / (power + 1);
power ← power + 1` exactly `n` times, each step using the updated power. -/
theorem c2_integer_branch_power_rule (c k a : ℝ)
    (h1 : is_negative_integer k) (h2 : is_negative_integer (k - a)) :
    (∀ n : ℕ, a = ((n : ℕ) : ℝ) →
      analytical_frac_diff c k a = some (diffLoop c k n)) ∧
    (∀ n : ℕ, a = -((n : ℕ) : ℝ) →
      analytical_frac_diff c k a = some (intLoop c k n)) := by
  constructor
  · rintro n rfl
    rw [first_branch_eq c k _ h1 h2, if_pos (by positivity)]
    rw [pyInt_natCast]
    simp
  · rintro n rfl
    rw [first_branch_eq c k _ h1 h2]
    rcases Nat.eq_zero_or_pos n with hn | hn
    · subst hn
      rw [if_pos (by norm_num), pyInt_neg_natCast]
      simp [diffLoop, intLoop]
    · have hpos : (0 : ℝ) < (n : ℝ) := by exact_mod_cast hn
      rw [if_neg (by linarith), pyInt_neg_natCast]
      simp

/-- Claim C2 witness: at `(const, power, order) = (2, -3, -2)` both `-3` and
`-1` are negative integers, the call runs the integration loop twice, and
the loop yields `(1, -1)` (the second antiderivative of `2·x⁻³`). -/
theorem c2_integer_branch_power_rule_witness :
    is_negative_integer (-3 : ℝ) ∧ is_negative_integer ((-3 : ℝ) - (-2)) ∧
    analytical_frac_diff 2 (-3) (-2) = some (intLoop 2 (-3) 2) ∧
    intLoop 2 (-3) 2 = ((1 : ℝ), (-1 : ℝ)) := by
  have h1 : is_negative_integer (-3 : ℝ) := negint_num (-3) (by omega) (by norm_num)
  have h2 : is_negative_integer ((-3 : ℝ) - (-2)) :=
    negint_num (-1) (by omega) (by norm_num)
  refine ⟨h1, h2, ?_, ?_⟩
  · exact (c2_integer_branch_power_rule 2 (-3) (-2) h1 h2).2 2 (by norm_num)
  · rw [intLoop, intLoop, intLoop]
    norm_num [Prod.mk.injEq]

/-- Claim C9: in the integration loop of the both-negative-integers branch
(`order < 0`), the divisor `power + 1` at every iteration is at most `-1`,
hence never zero: the power after `i` iterations is `k + i`, and `k + i + 1`
stays at or below the final power `k - a`, itself a negative integer. -/
theorem c9_integration_divisor_nonzero (c k a : ℝ)
    (h1 : is_negative_integer k) (h2 : is_negative_integer (k - a))
    (h3 : a < 0) :
    ∀ i : ℕ, i < (-pyInt a).toNat →
      (intLoop c k i).2 + 1 ≤ -1 ∧ (intLoop c k i).2 + 1 ≠ 0 := by
  obtain ⟨nk, hk, hnk⟩ := negint_exists h1
  obtain ⟨m, hm, hm1⟩ := negint_exists h2
  have ha : a = ((nk - m : ℤ) : ℝ) := by
    push_cast
    rw [hk] at hm
    linarith
  have hp : pyInt a = nk - m := by rw [ha, pyInt_intCast]
  intro i hi
  rw [hp] at hi
  have hi' : (i : ℤ) < m - nk := by omega
  have hsnd : (intLoop c k i).2 = k + i := intLoop_snd i c k
  rw [hsnd, hk]
  have key : (nk : ℝ) + (i : ℕ) + 1 ≤ -1 := by
    have hz : nk + (i : ℤ) + 1 ≤ -1 := by omega
    exact_mod_cast hz
  exact ⟨key, fun h0 => by linarith⟩

/-- Claim C9 witness: at `(const, power, order) = (1, -3, -2)` the loop runs
twice; at the first iteration the divisor is `-3 + 1 = -2`, at most `-1` and
nonzero. -/
theorem c9_integration_divisor_nonzero_witness :
    is_negative_integer (-3 : ℝ) ∧ is_negative_integer ((-3 : ℝ) - (-2)) ∧
    ((-2 : ℝ) < 0) ∧ 0 < (-pyInt (-2 : ℝ)).toNat ∧
    (intLoop 1 (-3) 0).2 + 1 ≤ -1 ∧ (intLoop 1 (-3) 0).2 + 1 ≠ 0 := by
  have h1 : is_negative_integer (-3 : ℝ) := negint_num (-3) (by omega) (by norm_num)
  have h2 : is_negative_integer ((-3 : ℝ) - (-2)) :=
    negint_num (-1) (by omega) (by norm_num)
  have h3 : (-2 : ℝ) < 0 := by norm_num
  have hp : pyInt (-2 : ℝ) = -2 := by
    have hc : ((-2 : ℤ) : ℝ) = (-2 : ℝ) := by norm_num
    rw [← hc, pyInt_intCast]
  have h4 : 0 < (-pyInt (-2 : ℝ)).toNat := by rw [hp]; decide
  have h5 := c9_integration_divisor_nonzero 1 (-3) (-2) h1 h2 h3 0 h4
  exact ⟨h1, h2, h3, h4, h5⟩

/-! ### Numeric values of the Gamma function for the concrete check -/

lemma Gamma_three : Real.Gamma 3 = 2 := by
  have h : (3 : ℝ) = 2 + 1 := by norm_num
  rw [h, Real.Gamma_add_one (by norm_num), Real.Gamma_two]
  norm_num

lemma Gamma_five_halves :
    Real.Gamma (2 - 0.5 + 1) = 3 / 4 * Real.sqrt Real.pi := by
  have h1 : (2 - 0.5 + 1 : ℝ) = 3 / 2 + 1 := by norm_num
  rw [h1, Real.Gamma_add_one (by norm_num)]
  have h2 : (3 / 2 : ℝ) = 1 / 2 + 1 := by norm_num
  rw [h2, Real.Gamma_add_one (by norm_num), Real.Gamma_one_half_eq]
  ring

lemma sqrt_pi_bounds :
    1.772 < Real.sqrt Real.pi ∧ Real.sqrt Real.pi < 1.7725 := by
  have hs : Real.sqrt Real.pi ^ 2 = Real.pi := Real.sq_sqrt Real.pi_pos.le
  have hpos : 0 < Real.sqrt Real.pi := Real.sqrt_pos.mpr Real.pi_pos
  constructor
  · nlinarith [Real.pi_gt_d6]
  · nlinarith [Real.pi_lt_d6]

/-- Claim C1: whenever neither `power` nor `power - order` is a negative
integer, the general Gamma formula is used:
`const' = const * Γ(power+1) / Γ(power-order+1)` and
`power' = power - order`; concretely `analytical_frac_diff 1 2 0.5` gives
`power' = 1.5` exactly and `const'` within `1e-3` of `1.5045`. -/
theorem c1_general_formula :
    (∀ c k a : ℝ, ¬ is_negative_integer k → ¬ is_negative_integer (k - a) →
      analytical_frac_diff c k a =
        some (c * Real.Gamma (k + 1) / Real.Gamma (k - a + 1), k - a)) ∧
    (∃ c' : ℝ, analytical_frac_diff 1 2 0.5 = some (c', 1.5) ∧
      |c' - 1.5045| ≤ 1e-3) := by
  refine ⟨fun c k a h1 h2 => general_branch_eq c k a h1 h2, ?_⟩
  refine ⟨1 * Real.Gamma (2 + 1) / Real.Gamma (2 - 0.5 + 1), ?_, ?_⟩
  · have h1 : ¬ is_negative_integer (2 : ℝ) := not_negint_of_nonneg (by norm_num)
    have h2 : ¬ is_negative_integer ((2 : ℝ) - 0.5) :=
      not_negint_of_nonneg (by norm_num)
    rw [general_branch_eq 1 2 0.5 h1 h2]
    norm_num
  · have h3 : (2 + 1 : ℝ) = 3 := by norm_num
    rw [h3, Gamma_three, Gamma_five_halves, one_mul]
    obtain ⟨hlo, hhi⟩ := sqrt_pi_bounds
    have hpos : (0 : ℝ) < 3 / 4 * Real.sqrt Real.pi := by nlinarith
    have hub : 2 / (3 / 4 * Real.sqrt Real.pi) ≤ 1.5055 := by
      rw [div_le_iff₀ hpos]
      nlinarith
    have hlb : 1.5035 ≤ 2 / (3 / 4 * Real.sqrt Real.pi) := by
      rw [le_div_iff₀ hpos]
      nlinarith
    rw [abs_le]
    constructor
    · nlinarith
    · nlinarith

/-- Claim C6: round trip: for inputs where neither `power` nor
`power - order` is a negative integer, differentiating with order `a` and
then with order `-a` returns exactly the original `(const, power)` (exact
real arithmetic). -/
theorem c6_round_trip (c k a : ℝ) (h1 : ¬ is_negative_integer k)
    (h2 : ¬ is_negative_integer (k - a)) :
    ∃ c' k' : ℝ, analytical_frac_diff c k a = some (c', k') ∧
      analytical_frac_diff c' k' (-a) = some (c, k) := by
  refine ⟨c * Real.Gamma (k + 1) / Real.Gamma (k - a + 1), k - a,
    general_branch_eq c k a h1 h2, ?_⟩
  have h2' : ¬ is_negative_integer (k - a - -a) := by
    rw [show k - a - -a = k by ring]
    exact h1
  rw [general_branch_eq _ _ _ h2 h2', show k - a - -a = k by ring]
  have g1 : Real.Gamma (k + 1) ≠ 0 := Gamma_shift_ne_zero h1
  have g2 : Real.Gamma (k - a + 1) ≠ 0 := Gamma_shift_ne_zero h2
  rw [Option.some.injEq, Prod.mk.injEq]
  refine ⟨?_, rfl⟩
  field_simp

/-- Claim C6 witness: the round trip at `(const, power, order) = (3, 1, 0.5)`,
where neither `1` nor `0.5` is a negative integer. -/
theorem c6_round_trip_witness :
    ¬ is_negative_integer (1 : ℝ) ∧ ¬ is_negative_integer ((1 : ℝ) - 0.5) ∧
    ∃ c' k' : ℝ, analytical_frac_diff 3 1 0.5 = some (c', k') ∧
      analytical_frac_diff c' k' (-0.5) = some (3, 1) := by
  have h1 : ¬ is_negative_integer (1 : ℝ) := not_negint_of_nonneg (by norm_num)
  have h2 : ¬ is_negative_integer ((1 : ℝ) - 0.5) :=
    not_negint_of_nonneg (by norm_num)
  exact ⟨h1, h2, c6_round_trip 3 1 0.5 h1 h2⟩

/-- Claim C7: inputs classified into the general branch never evaluate the
Gamma function at a pole: both `power + 1` and `power - order + 1` avoid the
non-positive integers, and for every `const` the call returns a normal
result rather than the domain error (modelled as `none`). -/
theorem c7_no_gamma_pole (k a : ℝ) (h1 : ¬ is_negative_integer k)
    (h2 : ¬ is_negative_integer (k - a)) :
    ¬ isGammaPole (k + 1) ∧ ¬ isGammaPole (k - a + 1) ∧
    ∀ c : ℝ, analytical_frac_diff c k a ≠ none := by
  refine ⟨not_pole_of_not_negint h1, not_pole_of_not_negint h2, fun c => ?_⟩
  rw [general_branch_eq c k a h1 h2]
  exact Option.some_ne_none _

/-- Claim C7 witness: at `(power, order) = (1, 0.5)` the general branch is
taken, the Gamma arguments `2` and `1.5` are not poles, and the call on
`const = 1` does not raise. -/
theorem c7_no_gamma_pole_witness :
    ¬ is_negative_integer (1 : ℝ) ∧ ¬ is_negative_integer ((1 : ℝ) - 0.5) ∧
    ¬ isGammaPole ((1 : ℝ) + 1) ∧ ¬ isGammaPole ((1 : ℝ) - 0.5 + 1) ∧
    analytical_frac_diff 1 1 0.5 ≠ none := by
  have h1 : ¬ is_negative_integer (1 : ℝ) := not_negint_of_nonneg (by norm_num)
  have h2 : ¬ is_negative_integer ((1 : ℝ) - 0.5) :=
    not_negint_of_nonneg (by norm_num)
  have h := c7_no_gamma_pole 1 0.5 h1 h2
  exact ⟨h1, h2, h.1, h.2.1, h.2.2 1⟩

/-- Claim C10: homogeneity in the constant: scaling `const` by `l` scales
the returned constant by `l` and leaves the returned power unchanged, in
every branch (branch selection never depends on `const`). -/
theorem c10_const_homogeneous (l c k a c' k' : ℝ)
    (h : analytical_frac_diff c k a = some (c', k')) :
    analytical_frac_diff (l * c) k a = some (l * c', k') := by
  by_cases hb : is_negative_integer k ∧ is_negative_integer (k - a)
  · rw [first_branch_eq c k a hb.1 hb.2] at h
    rw [first_branch_eq (l * c) k a hb.1 hb.2]
    by_cases ha : 0 ≤ a
    · rw [if_pos ha] at h ⊢
      rw [Option.some.injEq] at h
      rw [diffLoop_smul, Option.some.injEq, Prod.mk.injEq]
      exact ⟨by rw [h], by rw [h]⟩
    · rw [if_neg ha] at h ⊢
      rw [Option.some.injEq] at h
      rw [intLoop_smul, Option.some.injEq, Prod.mk.injEq]
      exact ⟨by rw [h], by rw [h]⟩
  · by_cases hor : is_negative_integer k ∨ is_negative_integer (k - a)
    · rw [second_branch_eq c k a hor hb] at h
      rw [second_branch_eq (l * c) k a hor hb]
      rw [Option.some.injEq, Prod.mk.injEq] at h
      rw [Option.some.injEq, Prod.mk.injEq]
      exact ⟨by rw [← h.1]; ring, h.2⟩
    · push_neg at hor
      rw [general_branch_eq c k a hor.1 hor.2] at h
      rw [general_branch_eq (l * c) k a hor.1 hor.2]
      rw [Option.some.injEq, Prod.mk.injEq] at h
      rw [Option.some.injEq, Prod.mk.injEq]
      exact ⟨by rw [← h.1]; ring, h.2⟩

/-- Claim C10 witness: at `(const, power, order) = (1, -1, 1/2)` the result
is the placeholder `(0, 0)`, and doubling the constant doubles the returned
constant (`2 * 0 = 0`) and keeps the power. -/
theorem c10_const_homogeneous_witness :
    analytical_frac_diff 1 (-1) (1/2) = some ((0 : ℝ), (0 : ℝ)) ∧
    analytical_frac_diff (2 * 1) (-1) (1/2) = some (2 * (0 : ℝ), (0 : ℝ)) := by
  have h1 : is_negative_integer (-1 : ℝ) := negint_num (-1) (by omega) (by norm_num)
  have h2 : ¬ is_negative_integer ((-1 : ℝ) - 1/2) :=
    not_negint_of_between (-2) (by norm_num) (by norm_num)
  have h : analytical_frac_diff 1 (-1) (1/2) = some ((0 : ℝ), (0 : ℝ)) :=
    second_branch_eq 1 (-1) (1/2) (Or.inl h1) fun hc => h2 hc.2
  exact ⟨h, c10_const_homogeneous 2 1 (-1) (1/2) 0 0 h⟩

end

end FracDiff
